import Mathlib

/-!
Verification of the rosette-identification analysis core.

This file gives a shallow embedding of the geometric/topological analysis
engine of the repository (src/cell_segmentation.py, src/vertex_detection.py,
src/rosette_detection.py) and proves or refutes the specified properties.

Modelling conventions:
* Pixel coordinates are integer pairs `(ℤ × ℤ)` in `(row, col)` order as
  produced by `np.where`; junction locations are rational pairs `(ℚ × ℚ)`
  stored in `(x, y)` order exactly as the source stores them.
* numpy comparisons of the form `np.sqrt(d) <= t` (with `t ≥ 0`) are embedded
  as `d ≤ t ^ 2` on squared distances, keeping everything inside `ℚ`.
* A Python `dict` of boundaries is a function `ℕ → Option (List (ℤ × ℤ))`;
  a `KeyError` (missing key) and numpy's `ValueError` on `np.min` of an
  empty array are embedded with the `Except String` monad.
* A Python `set` accumulated from lists and then listed is embedded as the
  first-occurrence deduplication (`List.dedup`) of the concatenation: the
  same membership set, with one canonical iteration order.
-/

deriving instance DecidableEq for Except

namespace Rosette

/-- Squared Euclidean distance between two rational points. -/
def sqDistQ (p q : ℚ × ℚ) : ℚ :=
  (p.1 - q.1) ^ 2 + (p.2 - q.2) ^ 2

/-- Squared Euclidean distance between two integer pixel coordinates,
as a rational (the source compares `np.sqrt` of this against thresholds). -/
def sqDistZ (p q : ℤ × ℤ) : ℚ :=
  ((p.1 : ℚ) - (q.1 : ℚ)) ^ 2 + ((p.2 : ℚ) - (q.2 : ℚ)) ^ 2

/-- Truncation toward zero, the behaviour of numpy's `astype(int)` on the
averaged (float) location. -/
def ratTrunc (q : ℚ) : ℤ :=
  if 0 ≤ q then ⌊q⌋ else ⌈q⌉

/-- A junction record as built by `find_vertices` / `cluster_vertices`:
the dict `{'location': (x, y), 'cells': [...], 'num_cells': n}`. -/
structure Vertex where
  location : ℚ × ℚ
  cells : List ℕ
  num_cells : ℕ
deriving DecidableEq, Inhabited, Repr

/-- `np.min` of the squared distances from point `p` to each pixel of a
boundary array: raises (numpy `ValueError`) on an empty boundary, exactly as
`np.min(distances)` does in `find_vertices` and `calculate_cell_neighbors`. -/
def minSqDistE (bnd : List (ℤ × ℤ)) (p : ℤ × ℤ) : Except String ℚ :=
  match bnd with
  | [] => .error "ValueError: zero-size array reduction"
  | q :: rest => .ok ((rest.map (fun b => sqDistZ b p)).foldl min (sqDistZ q p))

/-- The inner loop of `find_vertices` (vertex_detection.py lines 52-66): for
one sample point, scan `valid_cells`, collecting `cells_near_point` (minimum
boundary distance ≤ r) and `cells_very_close` (≤ r·0.5).  A missing
boundary entry raises `KeyError`; an empty boundary raises on `np.min`. -/
def cellsNearPoint (valid : List ℕ) (bmap : ℕ → Option (List (ℤ × ℤ)))
    (p : ℤ × ℤ) (r : ℚ) : Except String (List ℕ × List ℕ) :=
  valid.foldlM
    (fun acc cid =>
      match bmap cid with
      | none => .error "KeyError"
      | some bnd =>
        (minSqDistE bnd p).bind (fun m =>
          if m ≤ r ^ 2 then
            .ok (acc.1 ++ [cid], if m ≤ (r * (1 / 2)) ^ 2 then acc.2 ++ [cid] else acc.2)
          else .ok acc))
    ([], [])

/-- The candidate-emission loop of `find_vertices` (lines 48-76): a sample
point becomes a raw junction candidate iff at least `K` cells are near and at
least 2 cells are very close; the candidate stores location `(x, y)` (the
sample point is `(y, x)`), the near-cell list, and its length. -/
def rawCandidates (valid : List ℕ) (bmap : ℕ → Option (List (ℤ × ℤ)))
    (ps : List (ℤ × ℤ)) (r : ℚ) (K : ℕ) : Except String (List Vertex) :=
  ps.foldlM
    (fun acc p =>
      (cellsNearPoint valid bmap p r).map (fun nc =>
        if K ≤ nc.1.length ∧ 2 ≤ nc.2.length then
          acc ++ [⟨((p.2 : ℚ), (p.1 : ℚ)), nc.1, nc.1.length⟩]
        else acc))
    []

/-- `np.where(distances <= merge_distance)` over all candidate locations:
the indices (into the full candidate list, used or not) whose location lies
within the merge distance of `loc`. -/
def nearbyIndices (vs : List Vertex) (loc : ℚ × ℚ) (md : ℚ) : List ℕ :=
  (List.range vs.length).filter
    (fun j => sqDistQ ((vs.getD j default).location) loc ≤ md ^ 2)

/-- The union `merged_cells` of the cell lists of the merged candidates,
listed (a Python `set` listed; embedded as first-occurrence dedup). -/
def mergedCellList (vs : List Vertex) (idxs : List ℕ) : List ℕ :=
  (idxs.foldl (fun acc j => acc ++ (vs.getD j default).cells) []).dedup

/-- `np.mean(merged_locations, axis=0)`. -/
def avgLocation (locs : List (ℚ × ℚ)) : ℚ × ℚ :=
  ((locs.map Prod.fst).sum / (locs.length : ℚ),
   (locs.map Prod.snd).sum / (locs.length : ℚ))

/-- The merged junction emitted for an unprocessed seed candidate `i`:
absorb every candidate within the merge distance of the seed's location,
union the cell sets, average the locations and truncate to integers. -/
def seedMerge (vs : List Vertex) (md : ℚ) (i : ℕ) : Vertex :=
  let nearby := nearbyIndices vs ((vs.getD i default).location) md
  let cellsL := mergedCellList vs nearby
  let avg := avgLocation (nearby.map (fun j => (vs.getD j default).location))
  ⟨((ratTrunc avg.1 : ℚ), (ratTrunc avg.2 : ℚ)), cellsL, cellsL.length⟩

/-- The single-linkage one-pass merge loop shared by `find_vertices`
(lines 88-117) and `cluster_vertices` (lines 64-92): walk the candidates in
index order, skip indices already marked `used`, and for each unprocessed
seed emit its merged junction and mark the absorbed indices used. -/
def mergeLoop (vs : List Vertex) (md : ℚ) : List ℕ → Finset ℕ → List Vertex
  | [], _ => []
  | i :: rest, used =>
    if i ∈ used then mergeLoop vs md rest used
    else seedMerge vs md i ::
      mergeLoop vs md rest
        (used ∪ (nearbyIndices vs ((vs.getD i default).location) md).toFinset)

/-- One full merge pass over a candidate list. -/
def mergeVertices (vs : List Vertex) (md : ℚ) : List Vertex :=
  mergeLoop vs md (List.range vs.length) ∅

/-- `find_vertices` (vertex_detection.py): emit raw candidates from the
sampled foreground points, then cluster them with merge distance
`vertex_radius * 1.0`.  `samplePoints` stands for the strided subsample of
`np.where(mask > 0)` computed at lines 37-42. -/
def find_vertices (valid : List ℕ) (bmap : ℕ → Option (List (ℤ × ℤ)))
    (samplePoints : List (ℤ × ℤ)) (vertex_radius : ℚ)
    (min_cells_for_vertex : ℕ) : Except String (List Vertex) :=
  (rawCandidates valid bmap samplePoints vertex_radius min_cells_for_vertex).map
    (fun raw => if raw.isEmpty then [] else mergeVertices raw (vertex_radius * 1))

/-- `filter_rosette_vertices` (rosette_detection.py lines 18-31). -/
def filter_rosette_vertices (vs : List Vertex) (minR : ℕ) : List Vertex :=
  vs.filter (fun v => minR ≤ v.num_cells)

/-- `cluster_vertices` (rosette_detection.py lines 34-96): filter for
vertices with `num_cells ≥ min_cells_for_rosette`, then run the same merge
pass with merge distance `vertex_radius * 1.5`. -/
def cluster_vertices (vs : List Vertex) (vertex_radius : ℚ) (minR : ℕ) : List Vertex :=
  let rv := filter_rosette_vertices vs minR
  if rv.isEmpty then [] else mergeVertices rv (vertex_radius * (3 / 2))

/-- `scipy.ndimage.binary_erosion` with the default cross-shaped structuring
element and `border_value = 0`: a pixel survives iff it and its four
4-connected neighbours are all in the mask (the mask is a finite subset of
the plane; pixels outside the image count as background). -/
def erode (m : Finset (ℤ × ℤ)) : Finset (ℤ × ℤ) :=
  m.filter (fun p =>
    (p.1 - 1, p.2) ∈ m ∧ (p.1 + 1, p.2) ∈ m ∧ (p.1, p.2 - 1) ∈ m ∧ (p.1, p.2 + 1) ∈ m)

/-- The boundary rule shared by `extract_cell_boundaries`
(cell_segmentation.py lines 126-133) and `calculate_perimeter`
(rosette_detection.py lines 109-112): `mask & ~binary_erosion(mask)`. -/
def boundaryOf (m : Finset (ℤ × ℤ)) : Finset (ℤ × ℤ) :=
  m \ erode m

/-- `calculate_perimeter` (rosette_detection.py lines 99-113):
`np.sum(boundary)`, the number of boundary pixels. -/
def calculate_perimeter (m : Finset (ℤ × ℤ)) : ℕ :=
  (boundaryOf m).card

/-- The inner point loop of `calculate_cell_neighbors` (lines 142-146): scan
the first boundary's pixels and succeed on the first pixel whose minimum
distance to the other boundary is ≤ 2 (squared: ≤ 4), short-circuiting;
`np.min` on an empty other-boundary raises. -/
def isNeighborE : List (ℤ × ℤ) → List (ℤ × ℤ) → Except String Bool
  | [], _ => .ok false
  | p :: rest, bB =>
    (minSqDistE bB p).bind (fun m => if m ≤ 4 then .ok true else isNeighborE rest bB)

/-- The per-cell `neighbors` set built by `calculate_cell_neighbors`
(lines 131-147) for one cell: every other valid cell whose boundary passes
within 2 pixels of this cell's boundary. -/
def neighborSetE (valid : List ℕ) (bmap : ℕ → Option (List (ℤ × ℤ)))
    (cid : ℕ) : Except String (Finset ℕ) :=
  match bmap cid with
  | none => .error "KeyError"
  | some bA =>
    (valid.filter (fun o => o ≠ cid)).foldlM
      (fun s oid =>
        match bmap oid with
        | none => .error "KeyError"
        | some bB => (isNeighborE bA bB).map (fun b => if b then insert oid s else s))
      (∅ : Finset ℕ)

/-- `calculate_cell_neighbors` (rosette_detection.py lines 116-150): map each
valid cell to the size of its neighbour set. -/
def calculate_cell_neighbors (valid : List ℕ) (bmap : ℕ → Option (List (ℤ × ℤ))) :
    Except String (List (ℕ × ℕ)) :=
  valid.foldlM
    (fun acc cid => (neighborSetE valid bmap cid).map (fun s => acc ++ [(cid, s.card)]))
    []

/-- The `cell_neighbors` sets built in `prepare_interactive_data`
(rosette_detection.py lines 300-309): for each vertex, all other cells
sharing that vertex are neighbours of `cid`. -/
def vertexNeighbors (vertices : List Vertex) (cid : ℕ) : Finset ℕ :=
  vertices.foldl
    (fun s v => if cid ∈ v.cells then s ∪ (v.cells.toFinset.erase cid) else s) ∅

/-- The perimeter computation of `prepare_interactive_data`
(rosette_detection.py lines 336-344): use the cached boundary's pixel count
when the label is present in the boundary map, otherwise silently fall back
to recomputing `mask & ~erosion(mask)` from the cell's mask. -/
def perimeterLookup (bmap : ℕ → Option (List (ℤ × ℤ)))
    (cellMask : Finset (ℤ × ℤ)) (cid : ℕ) : ℕ :=
  match bmap cid with
  | some b => b.length
  | none => (boundaryOf cellMask).card

/-! ## Specification-side notions used to state the claims -/

/-- The cells of `valid` whose minimum squared boundary distance to `p` is at
most `t` (with the convention that an absent boundary is read as empty, which
never satisfies the bound).  `nearCells valid bmap p (r ^ 2)` is the set of
"near" cells for radius `r`, and `nearCells valid bmap p ((r * (1/2)) ^ 2)`
the set of "very close" cells. -/
def nearCells (valid : List ℕ) (bmap : ℕ → Option (List (ℤ × ℤ)))
    (p : ℤ × ℤ) (t : ℚ) : List ℕ :=
  valid.filter (fun c => decide (∃ b ∈ (bmap c).getD [], sqDistZ b p ≤ t))

/-- The raw junction candidate (if any) that `find_vertices` emits for one
sampled foreground point: emitted iff at least `K` cells are near and at
least 2 cells are very close; it records the `(x, y)` location, the near-cell
list and its length. -/
def candAt (valid : List ℕ) (bmap : ℕ → Option (List (ℤ × ℤ)))
    (r : ℚ) (K : ℕ) (p : ℤ × ℤ) : Option Vertex :=
  if K ≤ (nearCells valid bmap p (r ^ 2)).length ∧
      2 ≤ (nearCells valid bmap p ((r * (1 / 2)) ^ 2)).length then
    some ⟨((p.2 : ℚ), (p.1 : ℚ)), nearCells valid bmap p (r ^ 2),
      (nearCells valid bmap p (r ^ 2)).length⟩
  else none

/-- Two boundary pixel lists pass within Euclidean distance 2 of each other:
some pixel of one is within squared distance 4 of some pixel of the other.
This is the criterion `calculate_cell_neighbors` actually implements. -/
def touches2 (bA bB : List (ℤ × ℤ)) : Prop :=
  ∃ p ∈ bA, ∃ q ∈ bB, sqDistZ p q ≤ 4

instance (bA bB : List (ℤ × ℤ)) : Decidable (touches2 bA bB) := by
  unfold touches2; infer_instance

/-- 8-connected adjacency of two pixels: they differ by at most one step in
each coordinate (and are distinct). -/
def adjacent8 (p q : ℤ × ℤ) : Prop :=
  p ≠ q ∧ (p.1 - q.1).natAbs ≤ 1 ∧ (p.2 - q.2).natAbs ≤ 1

instance (p q : ℤ × ℤ) : Decidable (adjacent8 p q) := by
  unfold adjacent8; infer_instance

/-! ## Helper lemmas -/

theorem foldl_min_le_iff (t : ℚ) (l : List ℚ) (a : ℚ) :
    l.foldl min a ≤ t ↔ a ≤ t ∨ ∃ x ∈ l, x ≤ t := by
  induction l generalizing a with
  | nil => simp
  | cons x xs ih =>
    rw [List.foldl_cons, ih]
    constructor
    · rintro (h | ⟨y, hy, hle⟩)
      · rcases min_le_iff.mp h with h | h
        · exact Or.inl h
        · exact Or.inr ⟨x, List.mem_cons_self x xs, h⟩
      · exact Or.inr ⟨y, List.mem_cons_of_mem x hy, hle⟩
    · rintro (h | ⟨y, hy, hle⟩)
      · exact Or.inl (le_trans (min_le_left a x) h)
      · rcases List.mem_cons.mp hy with rfl | hy
        · exact Or.inl (le_trans (min_le_right a y) hle)
        · exact Or.inr ⟨y, hy, hle⟩

theorem minSqDistE_ok (bnd : List (ℤ × ℤ)) (p : ℤ × ℤ) (h : bnd ≠ []) :
    ∃ m, minSqDistE bnd p = .ok m ∧ ∀ t, (m ≤ t ↔ ∃ b ∈ bnd, sqDistZ b p ≤ t) := by
  cases bnd with
  | nil => exact absurd rfl h
  | cons q rest =>
    refine ⟨_, rfl, fun t => ?_⟩
    rw [foldl_min_le_iff]
    constructor
    · rintro (h1 | ⟨x, hx, hle⟩)
      · exact ⟨q, List.mem_cons_self q rest, h1⟩
      · obtain ⟨b, hb, rfl⟩ := List.mem_map.mp hx
        exact ⟨b, List.mem_cons_of_mem q hb, hle⟩
    · rintro ⟨b, hb, hle⟩
      rcases List.mem_cons.mp hb with rfl | hb
      · exact Or.inl hle
      · exact Or.inr ⟨sqDistZ b p, List.mem_map_of_mem _ hb, hle⟩

theorem minSqDistE_nil (p : ℤ × ℤ) :
    minSqDistE [] p = .error "ValueError: zero-size array reduction" := rfl

/-- The "very close" threshold is at most the "near" threshold. -/
theorem half_thr_le (r : ℚ) : (r * (1 / 2)) ^ 2 ≤ r ^ 2 := by
  nlinarith [sq_nonneg r]

theorem except_bind_ok {ε α β : Type} (a : α) (f : α → Except ε β) :
    (Except.ok a : Except ε α).bind f = f a := rfl

theorem except_map_ok {ε α β : Type} (a : α) (f : α → β) :
    (Except.ok a : Except ε α).map f = .ok (f a) := rfl

theorem except_bindM_ok {ε α β : Type} (a : α) (f : α → Except ε β) :
    ((Except.ok a : Except ε α) >>= f) = f a := rfl

theorem except_mapM_ok {ε α β : Type} (a : α) (f : α → β) :
    (f <$> (Except.ok a : Except ε α)) = .ok (f a) := rfl

theorem nearCells_cons (c : ℕ) (cs : List ℕ) (bmap : ℕ → Option (List (ℤ × ℤ)))
    (p : ℤ × ℤ) (t : ℚ) :
    nearCells (c :: cs) bmap p t =
      if ∃ b ∈ (bmap c).getD [], sqDistZ b p ≤ t then c :: nearCells cs bmap p t
      else nearCells cs bmap p t := by
  simp only [nearCells, List.filter_cons]
  by_cases h : ∃ b ∈ (bmap c).getD [], sqDistZ b p ≤ t
  · simp [h]
  · simp [h]

theorem cellsNearPoint_go (valid : List ℕ) (bmap : ℕ → Option (List (ℤ × ℤ)))
    (p : ℤ × ℤ) (r : ℚ) (acc : List ℕ × List ℕ)
    (hb : ∀ c ∈ valid, ∃ b, bmap c = some b ∧ b ≠ []) :
    valid.foldlM
      (fun acc cid =>
        match bmap cid with
        | none => .error "KeyError"
        | some bnd =>
          (minSqDistE bnd p).bind (fun m =>
            if m ≤ r ^ 2 then
              Except.ok (acc.1 ++ [cid],
                if m ≤ (r * (1 / 2)) ^ 2 then acc.2 ++ [cid] else acc.2)
            else .ok acc))
      acc =
    Except.ok (acc.1 ++ nearCells valid bmap p (r ^ 2),
      acc.2 ++ nearCells valid bmap p ((r * (1 / 2)) ^ 2)) := by
  induction valid generalizing acc with
  | nil =>
    simp only [List.foldlM_nil, nearCells, List.filter_nil, List.append_nil]
    rfl
  | cons c cs ih =>
    obtain ⟨b, hbc, hne⟩ := hb c (List.mem_cons_self c cs)
    obtain ⟨m, hm, hiff⟩ := minSqDistE_ok b p hne
    have hbs : ∀ c' ∈ cs, ∃ b, bmap c' = some b ∧ b ≠ [] :=
      fun c' hc' => hb c' (List.mem_cons_of_mem c hc')
    have hget : (bmap c).getD [] = b := by rw [hbc]; rfl
    have hex : ∀ t : ℚ, (∃ b' ∈ (bmap c).getD [], sqDistZ b' p ≤ t) ↔ m ≤ t := by
      intro t; rw [hget]; exact (hiff t).symm
    simp only [List.foldlM_cons, hbc, hm, except_bind_ok]
    by_cases h1 : m ≤ r ^ 2
    · by_cases h2 : m ≤ (r * (1 / 2)) ^ 2
      · simp only [if_pos h1, if_pos h2, ih _ hbs]
        rw [nearCells_cons, if_pos ((hex _).mpr h1),
          nearCells_cons, if_pos ((hex _).mpr h2)]
        simp [except_bindM_ok, List.append_assoc]
      · simp only [if_pos h1, if_neg h2, ih _ hbs]
        rw [nearCells_cons, if_pos ((hex _).mpr h1),
          nearCells_cons, if_neg (fun hx => h2 ((hex _).mp hx))]
        simp [except_bindM_ok, List.append_assoc]
    · have h2 : ¬ m ≤ (r * (1 / 2)) ^ 2 := fun hx => h1 (hx.trans (half_thr_le r))
      simp only [if_neg h1, ih _ hbs]
      rw [nearCells_cons, if_neg (fun hx => h1 ((hex _).mp hx)),
        nearCells_cons, if_neg (fun hx => h2 ((hex _).mp hx))]
      simp [except_bindM_ok]

/-- When every valid cell has a present, nonempty boundary, the inner loop of
`find_vertices` computes exactly the near and very-close filters. -/
theorem cellsNearPoint_ok (valid : List ℕ) (bmap : ℕ → Option (List (ℤ × ℤ)))
    (p : ℤ × ℤ) (r : ℚ)
    (hb : ∀ c ∈ valid, ∃ b, bmap c = some b ∧ b ≠ []) :
    cellsNearPoint valid bmap p r =
      .ok (nearCells valid bmap p (r ^ 2),
        nearCells valid bmap p ((r * (1 / 2)) ^ 2)) := by
  have := cellsNearPoint_go valid bmap p r ([], []) hb
  simpa [cellsNearPoint] using this

theorem rawCandidates_go (valid : List ℕ) (bmap : ℕ → Option (List (ℤ × ℤ)))
    (ps : List (ℤ × ℤ)) (r : ℚ) (K : ℕ) (acc : List Vertex)
    (hb : ∀ c ∈ valid, ∃ b, bmap c = some b ∧ b ≠ []) :
    ps.foldlM
      (fun acc p =>
        (cellsNearPoint valid bmap p r).map (fun nc =>
          if K ≤ nc.1.length ∧ 2 ≤ nc.2.length then
            acc ++ [⟨((p.2 : ℚ), (p.1 : ℚ)), nc.1, nc.1.length⟩]
          else acc))
      acc =
    Except.ok (acc ++ ps.filterMap (candAt valid bmap r K)) := by
  induction ps generalizing acc with
  | nil =>
    simp only [List.foldlM_nil, List.filterMap_nil, List.append_nil]
    rfl
  | cons p ps ih =>
    simp only [List.foldlM_cons, cellsNearPoint_ok valid bmap p r hb, except_map_ok,
      except_bindM_ok]
    by_cases hc : K ≤ (nearCells valid bmap p (r ^ 2)).length ∧
        2 ≤ (nearCells valid bmap p ((r * (1 / 2)) ^ 2)).length
    · rw [if_pos hc, ih]
      simp only [List.filterMap_cons, candAt, if_pos hc, List.append_assoc,
        List.singleton_append]
    · rw [if_neg hc, ih]
      simp only [List.filterMap_cons, candAt, if_neg hc]

/-- When every valid cell has a present, nonempty boundary, `find_vertices`'
candidate loop emits exactly one raw candidate per accepted sample point. -/
theorem rawCandidates_ok (valid : List ℕ) (bmap : ℕ → Option (List (ℤ × ℤ)))
    (ps : List (ℤ × ℤ)) (r : ℚ) (K : ℕ)
    (hb : ∀ c ∈ valid, ∃ b, bmap c = some b ∧ b ≠ []) :
    rawCandidates valid bmap ps r K =
      .ok (ps.filterMap (candAt valid bmap r K)) := by
  have := rawCandidates_go valid bmap ps r K [] hb
  simpa [rawCandidates] using this

theorem mem_foldl_append {α β : Type} (f : β → List α) (l : List β)
    (init : List α) (x : α) :
    x ∈ l.foldl (fun acc j => acc ++ f j) init ↔ x ∈ init ∨ ∃ j ∈ l, x ∈ f j := by
  induction l generalizing init with
  | nil => simp
  | cons j js ih =>
    rw [List.foldl_cons, ih]
    simp only [List.mem_append, List.mem_cons]
    constructor
    · rintro ((h | h) | ⟨k, hk, hx⟩)
      · exact Or.inl h
      · exact Or.inr ⟨j, Or.inl rfl, h⟩
      · exact Or.inr ⟨k, Or.inr hk, hx⟩
    · rintro (h | ⟨k, rfl | hk, hx⟩)
      · exact Or.inl (Or.inl h)
      · exact Or.inl (Or.inr hx)
      · exact Or.inr ⟨k, hk, hx⟩

theorem mem_mergedCellList (vs : List Vertex) (idxs : List ℕ) (x : ℕ) :
    x ∈ mergedCellList vs idxs ↔ ∃ j ∈ idxs, x ∈ (vs.getD j default).cells := by
  rw [mergedCellList, List.mem_dedup, mem_foldl_append]
  simp

theorem nodup_mergedCellList (vs : List Vertex) (idxs : List ℕ) :
    (mergedCellList vs idxs).Nodup :=
  List.nodup_dedup _

theorem mem_nearbyIndices (vs : List Vertex) (loc : ℚ × ℚ) (md : ℚ) (j : ℕ) :
    j ∈ nearbyIndices vs loc md ↔
      j < vs.length ∧ sqDistQ ((vs.getD j default).location) loc ≤ md ^ 2 := by
  simp [nearbyIndices, List.mem_filter, List.mem_range]

theorem self_mem_nearbyIndices (vs : List Vertex) (md : ℚ) (i : ℕ)
    (hi : i < vs.length) :
    i ∈ nearbyIndices vs ((vs.getD i default).location) md := by
  rw [mem_nearbyIndices]
  refine ⟨hi, ?_⟩
  have : sqDistQ ((vs.getD i default).location) ((vs.getD i default).location) = 0 := by
    simp [sqDistQ]
  rw [this]
  positivity

/-- Every junction emitted by the merge loop is the merged junction of some
seed index drawn from the remaining index list. -/
theorem mem_mergeLoop (vs : List Vertex) (md : ℚ) (idxs : List ℕ)
    (used : Finset ℕ) (v : Vertex) (hv : v ∈ mergeLoop vs md idxs used) :
    ∃ i ∈ idxs, v = seedMerge vs md i := by
  induction idxs generalizing used with
  | nil => simp [mergeLoop] at hv
  | cons i rest ih =>
    rw [mergeLoop] at hv
    by_cases hu : i ∈ used
    · rw [if_pos hu] at hv
      obtain ⟨k, hk, hvk⟩ := ih _ hv
      exact ⟨k, List.mem_cons_of_mem i hk, hvk⟩
    · rw [if_neg hu] at hv
      rcases List.mem_cons.mp hv with rfl | hv
      · exact ⟨i, List.mem_cons_self i rest, rfl⟩
      · obtain ⟨k, hk, hvk⟩ := ih _ hv
        exact ⟨k, List.mem_cons_of_mem i hk, hvk⟩

theorem seedMerge_cells (vs : List Vertex) (md : ℚ) (i : ℕ) :
    (seedMerge vs md i).cells =
      mergedCellList vs (nearbyIndices vs ((vs.getD i default).location) md) := rfl

theorem seedMerge_num_cells (vs : List Vertex) (md : ℚ) (i : ℕ) :
    (seedMerge vs md i).num_cells = (seedMerge vs md i).cells.length := rfl

/-- The cardinality invariant for merged junctions: `num_cells` is the number
of distinct participating cells, and the stored cell list is duplicate-free. -/
theorem seedMerge_inv (vs : List Vertex) (md : ℚ) (i : ℕ) :
    (seedMerge vs md i).cells.Nodup ∧
      (seedMerge vs md i).num_cells = (seedMerge vs md i).cells.toFinset.card := by
  have hnd : (seedMerge vs md i).cells.Nodup := nodup_mergedCellList _ _
  exact ⟨hnd, by rw [seedMerge_num_cells, List.toFinset_card_of_nodup hnd]⟩

/-- A seed absorbs the cell set of every candidate within merge distance of
its location (including itself). -/
theorem seedMerge_absorbs (vs : List Vertex) (md : ℚ) (i j : ℕ)
    (hj : j < vs.length)
    (hd : sqDistQ ((vs.getD j default).location)
      ((vs.getD i default).location) ≤ md ^ 2) :
    (vs.getD j default).cells.toFinset ⊆ (seedMerge vs md i).cells.toFinset := by
  intro x hx
  rw [List.mem_toFinset] at hx ⊢
  rw [seedMerge_cells, mem_mergedCellList]
  exact ⟨j, (mem_nearbyIndices vs _ md j).mpr ⟨hj, hd⟩, hx⟩

theorem seedMerge_self_subset (vs : List Vertex) (md : ℚ) (i : ℕ)
    (hi : i < vs.length) :
    (vs.getD i default).cells.toFinset ⊆ (seedMerge vs md i).cells.toFinset := by
  refine seedMerge_absorbs vs md i i hi ?_
  have : sqDistQ ((vs.getD i default).location) ((vs.getD i default).location) = 0 := by
    simp [sqDistQ]
  rw [this]
  positivity

/-- Every candidate not yet marked used is absorbed into some emitted merged
junction. -/
theorem mergeLoop_covers (vs : List Vertex) (md : ℚ) (idxs : List ℕ)
    (used : Finset ℕ) (hsub : ∀ k ∈ idxs, k < vs.length) (j : ℕ)
    (hj : j ∈ idxs) (hju : j ∉ used) :
    ∃ v ∈ mergeLoop vs md idxs used,
      (vs.getD j default).cells.toFinset ⊆ v.cells.toFinset := by
  induction idxs generalizing used with
  | nil => simp at hj
  | cons i rest ih =>
    rw [mergeLoop]
    by_cases hu : i ∈ used
    · rw [if_pos hu]
      rcases List.mem_cons.mp hj with rfl | hj2
      · exact absurd hu hju
      · exact ih used (fun k hk => hsub k (List.mem_cons_of_mem i hk)) hj2 hju
    · rw [if_neg hu]
      by_cases hnear : j ∈ nearbyIndices vs ((vs.getD i default).location) md
      · refine ⟨seedMerge vs md i, List.mem_cons_self _ _, ?_⟩
        obtain ⟨hjlt, hd⟩ := (mem_nearbyIndices vs _ md j).mp hnear
        exact seedMerge_absorbs vs md i j hjlt hd
      · rcases List.mem_cons.mp hj with rfl | hj2
        · exact absurd (self_mem_nearbyIndices vs md j
            (hsub j (List.mem_cons_self j rest))) hnear
        · have hju2 : j ∉ used ∪
              (nearbyIndices vs ((vs.getD i default).location) md).toFinset := by
            simp only [Finset.mem_union, List.mem_toFinset]
            exact fun h => h.elim hju hnear
          obtain ⟨v, hv, hvs⟩ := ih _ (fun k hk => hsub k (List.mem_cons_of_mem i hk))
            hj2 hju2
          exact ⟨v, List.mem_cons_of_mem _ hv, hvs⟩

theorem mem_mergeVertices (vs : List Vertex) (md : ℚ) (v : Vertex)
    (hv : v ∈ mergeVertices vs md) :
    ∃ i, i < vs.length ∧ v = seedMerge vs md i := by
  obtain ⟨i, hi, hvi⟩ := mem_mergeLoop vs md _ _ v hv
  exact ⟨i, List.mem_range.mp hi, hvi⟩

theorem mergeVertices_covers (vs : List Vertex) (md : ℚ) (j : ℕ)
    (hj : j < vs.length) :
    ∃ v ∈ mergeVertices vs md,
      (vs.getD j default).cells.toFinset ⊆ v.cells.toFinset := by
  refine mergeLoop_covers vs md _ _ (fun k hk => List.mem_range.mp hk) j
    (List.mem_range.mpr hj) ?_
  simp

theorem ratTrunc_intCast (a : ℤ) : ratTrunc (a : ℚ) = a := by
  unfold ratTrunc
  by_cases h : (0 : ℚ) ≤ (a : ℚ)
  · rw [if_pos h, Int.floor_intCast]
  · rw [if_neg h, Int.ceil_intCast]

theorem avgLocation_single (x : ℚ × ℚ) : avgLocation [x] = x := by
  simp [avgLocation]

theorem getD_mem_of_lt {α : Type} [Inhabited α] (l : List α) (i : ℕ)
    (h : i < l.length) : l.getD i default ∈ l := by
  rw [List.getD_eq_getElem l default h]
  exact List.getElem_mem h

theorem filter_range_eq_single (p : ℕ → Bool) (n i : ℕ) (hi : i < n)
    (h : ∀ j, j < n → (p j = true ↔ j = i)) :
    (List.range n).filter p = [i] := by
  induction n with
  | zero => omega
  | succ n ih =>
    rw [List.range_succ, List.filter_append]
    by_cases hin : i = n
    · subst hin
      have hfr : (List.range i).filter p = [] := by
        rw [List.filter_eq_nil_iff]
        intro j hj hpj
        have hjlt : j < i := List.mem_range.mp hj
        have := (h j (by omega)).mp hpj
        omega
      have hpi : p i = true := (h i (Nat.lt_succ_self i)).mpr rfl
      rw [hfr]
      simp [hpi]
    · have hilt : i < n := by omega
      have hpn : ¬ p n = true := fun hp => hin ((h n (Nat.lt_succ_self n)).mp hp).symm
      rw [ih hilt (fun j hj => h j (Nat.lt_succ_of_lt hj))]
      have hfn : List.filter p [n] = [] := by simp [hpn]
      rw [hfn, List.append_nil]

theorem map_getD_range {α : Type} [Inhabited α] (l : List α) :
    (List.range l.length).map (fun i => l.getD i default) = l := by
  induction l with
  | nil => simp
  | cons a t ih =>
    rw [List.length_cons, List.range_succ_eq_map, List.map_cons, List.map_map]
    have : ((fun i => (a :: t).getD i default) ∘ Nat.succ) =
        fun i => t.getD i default := by
      funext i
      simp [List.getD_cons_succ]
    rw [this, ih]
    simp [List.getD_cons_zero]

/-- If all candidate locations are pairwise farther apart than the merge
distance, each seed's nearby set is just itself. -/
theorem nearby_eq_single (vs : List Vertex) (md : ℚ) (i : ℕ) (hi : i < vs.length)
    (hsep : ∀ j k, j < vs.length → k < vs.length → j ≠ k →
      ¬ sqDistQ ((vs.getD j default).location) ((vs.getD k default).location) ≤ md ^ 2) :
    nearbyIndices vs ((vs.getD i default).location) md = [i] := by
  unfold nearbyIndices
  apply filter_range_eq_single _ _ _ hi
  intro j hj
  constructor
  · intro hp
    by_contra hne
    exact hsep j i hj hi hne (of_decide_eq_true hp)
  · rintro rfl
    apply decide_eq_true
    have : sqDistQ ((vs.getD j default).location) ((vs.getD j default).location) = 0 := by
      simp [sqDistQ]
    rw [this]
    positivity

/-- A junction with a duplicate-free cell list, truncation-stable location
and accurate count is reproduced exactly by a singleton merge. -/
theorem seedMerge_eq_self (vs : List Vertex) (md : ℚ) (i : ℕ) (hi : i < vs.length)
    (hsep : ∀ j k, j < vs.length → k < vs.length → j ≠ k →
      ¬ sqDistQ ((vs.getD j default).location) ((vs.getD k default).location) ≤ md ^ 2)
    (hnd : (vs.getD i default).cells.Nodup)
    (hnum : (vs.getD i default).num_cells = (vs.getD i default).cells.length)
    (hloc : (vs.getD i default).location =
      ((ratTrunc (vs.getD i default).location.1 : ℚ),
       (ratTrunc (vs.getD i default).location.2 : ℚ))) :
    seedMerge vs md i = vs.getD i default := by
  simp only [seedMerge]
  rw [nearby_eq_single vs md i hi hsep]
  have hcells : mergedCellList vs [i] = (vs.getD i default).cells := by
    unfold mergedCellList
    simp only [List.foldl_cons, List.foldl_nil, List.nil_append]
    exact List.dedup_eq_self.mpr hnd
  rw [hcells]
  have havg : avgLocation ([i].map (fun j => (vs.getD j default).location)) =
      (vs.getD i default).location := by
    rw [List.map_cons, List.map_nil, avgLocation_single]
  rw [havg]
  cases hv : vs.getD i default with
  | mk loc cs nc =>
    rw [hv] at hloc hnum
    simp only at hloc hnum ⊢
    rw [Vertex.mk.injEq]
    exact ⟨hloc.symm, rfl, hnum.symm⟩

/-- Under pairwise separation, the merge loop reproduces its input list. -/
theorem mergeLoop_id (vs : List Vertex) (md : ℚ)
    (hsep : ∀ j k, j < vs.length → k < vs.length → j ≠ k →
      ¬ sqDistQ ((vs.getD j default).location) ((vs.getD k default).location) ≤ md ^ 2)
    (hnd : ∀ v ∈ vs, v.cells.Nodup)
    (hnum : ∀ v ∈ vs, v.num_cells = v.cells.length)
    (hloc : ∀ v ∈ vs, v.location =
      ((ratTrunc v.location.1 : ℚ), (ratTrunc v.location.2 : ℚ)))
    (idxs : List ℕ) (used : Finset ℕ)
    (hrange : ∀ k ∈ idxs, k < vs.length)
    (hunused : ∀ k ∈ idxs, k ∉ used) (hndi : idxs.Nodup) :
    mergeLoop vs md idxs used = idxs.map (fun i => vs.getD i default) := by
  induction idxs generalizing used with
  | nil => rfl
  | cons i rest ih =>
    have hi : i < vs.length := hrange i (List.mem_cons_self i rest)
    have hmem : vs.getD i default ∈ vs := getD_mem_of_lt vs i hi
    rw [mergeLoop, if_neg (hunused i (List.mem_cons_self i rest))]
    rw [seedMerge_eq_self vs md i hi hsep (hnd _ hmem) (hnum _ hmem) (hloc _ hmem)]
    rw [List.map_cons]
    congr 1
    rw [nearby_eq_single vs md i hi hsep]
    apply ih
    · exact fun k hk => hrange k (List.mem_cons_of_mem i hk)
    · intro k hk
      simp only [Finset.mem_union, List.toFinset_cons, List.toFinset_nil]
      rintro (hku | hki)
      · exact hunused k (List.mem_cons_of_mem i hk) hku
      · have : k = i := by simpa using hki
        subst this
        exact (List.nodup_cons.mp hndi).1 hk
    · exact (List.nodup_cons.mp hndi).2

/-- Under pairwise separation (and the structural invariants that
merged output always satisfies), one more merge pass is the identity. -/
theorem mergeVertices_id (vs : List Vertex) (md : ℚ)
    (hsep : ∀ j k, j < vs.length → k < vs.length → j ≠ k →
      ¬ sqDistQ ((vs.getD j default).location) ((vs.getD k default).location) ≤ md ^ 2)
    (hnd : ∀ v ∈ vs, v.cells.Nodup)
    (hnum : ∀ v ∈ vs, v.num_cells = v.cells.length)
    (hloc : ∀ v ∈ vs, v.location =
      ((ratTrunc v.location.1 : ℚ), (ratTrunc v.location.2 : ℚ))) :
    mergeVertices vs md = vs := by
  unfold mergeVertices
  rw [mergeLoop_id vs md hsep hnd hnum hloc _ _
    (fun k hk => List.mem_range.mp hk) (fun k _ => Finset.not_mem_empty k)
    (List.nodup_range _)]
  exact map_getD_range vs

theorem except_bindM_error {ε α β : Type} (e : ε) (f : α → Except ε β) :
    ((Except.error e : Except ε α) >>= f) = .error e := rfl

theorem except_bind_error {ε α β : Type} (e : ε) (f : α → Except ε β) :
    (Except.error e : Except ε α).bind f = .error e := rfl

theorem except_map_error {ε α β : Type} (e : ε) (f : α → β) :
    (Except.error e : Except ε α).map f = .error e := rfl

theorem sqDistZ_comm (p q : ℤ × ℤ) : sqDistZ p q = sqDistZ q p := by
  unfold sqDistZ
  ring

theorem touches2_comm (bA bB : List (ℤ × ℤ)) :
    touches2 bA bB ↔ touches2 bB bA := by
  unfold touches2
  constructor
  · rintro ⟨p, hp, q, hq, hle⟩
    exact ⟨q, hq, p, hp, (sqDistZ_comm q p) ▸ hle⟩
  · rintro ⟨p, hp, q, hq, hle⟩
    exact ⟨q, hq, p, hp, (sqDistZ_comm q p) ▸ hle⟩

/-- The point loop of `calculate_cell_neighbors` computes, on a nonempty
other-boundary, exactly the within-distance-2 test. -/
theorem isNeighborE_ok (bA bB : List (ℤ × ℤ)) (hB : bB ≠ []) :
    ∃ b : Bool, isNeighborE bA bB = .ok b ∧ (b = true ↔ touches2 bA bB) := by
  induction bA with
  | nil =>
    refine ⟨false, rfl, ?_⟩
    simp [touches2]
  | cons p rest ih =>
    obtain ⟨m, hm, hiff⟩ := minSqDistE_ok bB p hB
    rw [isNeighborE, hm, except_bind_ok]
    by_cases hle : m ≤ 4
    · refine ⟨true, by rw [if_pos hle], ?_⟩
      obtain ⟨q, hq, hqle⟩ := (hiff 4).mp hle
      exact ⟨fun _ => ⟨p, List.mem_cons_self p rest, q, hq, (sqDistZ_comm p q) ▸ hqle⟩,
        fun _ => rfl⟩
    · obtain ⟨b, hb, hbiff⟩ := ih
      refine ⟨b, by rw [if_neg hle]; exact hb, ?_⟩
      rw [hbiff]
      unfold touches2
      constructor
      · rintro ⟨x, hx, q, hq, hxq⟩
        exact ⟨x, List.mem_cons_of_mem p hx, q, hq, hxq⟩
      · rintro ⟨x, hx, q, hq, hxq⟩
        rcases List.mem_cons.mp hx with rfl | hx2
        · exact absurd ((hiff 4).mpr ⟨q, hq, (sqDistZ_comm x q) ▸ hxq⟩) hle
        · exact ⟨x, hx2, q, hq, hxq⟩

/-- `isNeighborE` never reports contact with an empty boundary. -/
theorem isNeighborE_nil_right (bA : List (ℤ × ℤ)) :
    isNeighborE bA [] ≠ .ok true := by
  cases bA with
  | nil => simp [isNeighborE]
  | cons p rest =>
    rw [isNeighborE, minSqDistE_nil, except_bind_error]
    simp

theorem neighborSetE_go (bA : List (ℤ × ℤ)) (others : List ℕ)
    (bmap : ℕ → Option (List (ℤ × ℤ))) (s : Finset ℕ)
    (hb : ∀ o ∈ others, ∃ b, bmap o = some b ∧ b ≠ []) :
    ∃ S, others.foldlM
        (fun s oid =>
          match bmap oid with
          | none => .error "KeyError"
          | some bB => (isNeighborE bA bB).map (fun b => if b then insert oid s else s))
        s = Except.ok S ∧
      ∀ x, x ∈ S ↔ x ∈ s ∨ (x ∈ others ∧ touches2 bA ((bmap x).getD [])) := by
  induction others generalizing s with
  | nil => exact ⟨s, rfl, fun x => by simp⟩
  | cons o os ih =>
    obtain ⟨bB, hbB, hne⟩ := hb o (List.mem_cons_self o os)
    obtain ⟨b, hob, hbiff⟩ := isNeighborE_ok bA bB hne
    have hos : ∀ o' ∈ os, ∃ b, bmap o' = some b ∧ b ≠ [] :=
      fun o' ho' => hb o' (List.mem_cons_of_mem o ho')
    rw [List.foldlM_cons, hbB]
    dsimp only
    rw [hob, except_map_ok, except_bindM_ok]
    cases b with
    | true =>
      obtain ⟨S, hS, hSiff⟩ := ih (insert o s) hos
      rw [if_pos rfl]
      refine ⟨S, hS, fun x => ?_⟩
      rw [hSiff, Finset.mem_insert]
      constructor
      · rintro ((rfl | hx) | ⟨hxo, ht⟩)
        · exact Or.inr ⟨List.mem_cons_self x os, by rw [hbB]; exact hbiff.mp rfl⟩
        · exact Or.inl hx
        · exact Or.inr ⟨List.mem_cons_of_mem o hxo, ht⟩
      · rintro (hx | ⟨hxo, ht⟩)
        · exact Or.inl (Or.inr hx)
        · rcases List.mem_cons.mp hxo with rfl | hx2
          · exact Or.inl (Or.inl rfl)
          · exact Or.inr ⟨hx2, ht⟩
    | false =>
      obtain ⟨S, hS, hSiff⟩ := ih s hos
      rw [if_neg (by simp)]
      refine ⟨S, hS, fun x => ?_⟩
      rw [hSiff]
      constructor
      · rintro (hx | ⟨hxo, ht⟩)
        · exact Or.inl hx
        · exact Or.inr ⟨List.mem_cons_of_mem o hxo, ht⟩
      · rintro (hx | ⟨hxo, ht⟩)
        · exact Or.inl hx
        · rcases List.mem_cons.mp hxo with rfl | hx2
          · exfalso
            rw [hbB] at ht
            exact Bool.false_ne_true (hbiff.mpr ht)
          · exact Or.inr ⟨hx2, ht⟩

/-- When all valid cells have present nonempty boundaries, the neighbour set
computed for a cell is exactly the other valid cells whose boundary comes
within 2 pixels of its own. -/
theorem neighborSetE_ok (valid : List ℕ) (bmap : ℕ → Option (List (ℤ × ℤ)))
    (cid : ℕ) (hb : ∀ c ∈ valid, ∃ b, bmap c = some b ∧ b ≠ [])
    (hcid : cid ∈ valid) :
    ∃ S, neighborSetE valid bmap cid = .ok S ∧
      ∀ x, x ∈ S ↔ x ∈ valid ∧ x ≠ cid ∧
        touches2 ((bmap cid).getD []) ((bmap x).getD []) := by
  obtain ⟨bA, hbA, _⟩ := hb cid hcid
  have hbo : ∀ o ∈ valid.filter (fun o => o ≠ cid), ∃ b, bmap o = some b ∧ b ≠ [] :=
    fun o ho => hb o (List.mem_of_mem_filter ho)
  obtain ⟨S, hS, hSiff⟩ := neighborSetE_go bA (valid.filter (fun o => o ≠ cid)) bmap ∅ hbo
  refine ⟨S, ?_, fun x => ?_⟩
  · rw [neighborSetE, hbA]
    exact hS
  · rw [hSiff x]
    have hget : (bmap cid).getD [] = bA := by rw [hbA]; rfl
    simp only [Finset.not_mem_empty, false_or, List.mem_filter, decide_eq_true_eq, hget]
    tauto

theorem vertexNeighbors_go (vz : List Vertex) (cid : ℕ) (s : Finset ℕ) (x : ℕ) :
    x ∈ vz.foldl
        (fun s v => if cid ∈ v.cells then s ∪ (v.cells.toFinset.erase cid) else s) s ↔
      x ∈ s ∨ ∃ v ∈ vz, cid ∈ v.cells ∧ x ∈ v.cells ∧ x ≠ cid := by
  induction vz generalizing s with
  | nil => simp
  | cons v vz ih =>
    rw [List.foldl_cons, ih]
    by_cases hc : cid ∈ v.cells
    · rw [if_pos hc]
      simp only [Finset.mem_union, Finset.mem_erase, List.mem_toFinset, List.mem_cons]
      constructor
      · rintro ((hx | ⟨hne, hxv⟩) | ⟨w, hw, h1, h2, h3⟩)
        · exact Or.inl hx
        · exact Or.inr ⟨v, Or.inl rfl, hc, hxv, hne⟩
        · exact Or.inr ⟨w, Or.inr hw, h1, h2, h3⟩
      · rintro (hx | ⟨w, rfl | hw, h1, h2, h3⟩)
        · exact Or.inl (Or.inl hx)
        · exact Or.inl (Or.inr ⟨h3, h2⟩)
        · exact Or.inr ⟨w, hw, h1, h2, h3⟩
    · rw [if_neg hc]
      constructor
      · rintro (hx | ⟨w, hw, h1, h2, h3⟩)
        · exact Or.inl hx
        · exact Or.inr ⟨w, List.mem_cons_of_mem v hw, h1, h2, h3⟩
      · rintro (hx | ⟨w, hw, h1, h2, h3⟩)
        · exact Or.inl hx
        · rcases List.mem_cons.mp hw with rfl | hw2
          · exact absurd h1 hc
          · exact Or.inr ⟨w, hw2, h1, h2, h3⟩

/-- Membership in the vertex-co-participation neighbour sets of
`prepare_interactive_data`. -/
theorem mem_vertexNeighbors (vz : List Vertex) (cid x : ℕ) :
    x ∈ vertexNeighbors vz cid ↔
      ∃ v ∈ vz, cid ∈ v.cells ∧ x ∈ v.cells ∧ x ≠ cid := by
  rw [vertexNeighbors, vertexNeighbors_go]
  simp

theorem except_foldlM_nil {ε α β : Type} (f : α → β → Except ε α) (acc : α) :
    ([] : List β).foldlM f acc = .ok acc := rfl

/-- If the inner loop of `find_vertices` completes for some sample point,
every valid cell had a present, nonempty boundary entry. -/
theorem cellsNearPoint_ok_boundaries (valid : List ℕ)
    (bmap : ℕ → Option (List (ℤ × ℤ))) (p : ℤ × ℤ) (r : ℚ)
    (nc : List ℕ × List ℕ) (h : cellsNearPoint valid bmap p r = .ok nc) :
    ∀ c ∈ valid, ∃ b, bmap c = some b ∧ b ≠ [] := by
  unfold cellsNearPoint at h
  revert h
  generalize ([] , []) = acc
  intro h
  induction valid generalizing acc with
  | nil => simp
  | cons c cs ih =>
    rw [List.foldlM_cons] at h
    cases hc : bmap c with
    | none =>
      rw [hc] at h
      dsimp only at h
      rw [except_bindM_error] at h
      exact absurd h (by simp)
    | some bnd =>
      cases bnd with
      | nil =>
        rw [hc] at h
        dsimp only at h
        rw [minSqDistE_nil, except_bind_error, except_bindM_error] at h
        exact absurd h (by simp)
      | cons q qs =>
        rw [hc] at h
        dsimp only at h
        obtain ⟨m, hm, _⟩ := minSqDistE_ok (q :: qs) p (by simp)
        rw [hm, except_bind_ok] at h
        intro x hx
        rcases List.mem_cons.mp hx with rfl | hx2
        · exact ⟨q :: qs, hc, by simp⟩
        · by_cases h1 : m ≤ r ^ 2
          · rw [if_pos h1, except_bindM_ok] at h
            exact ih _ h x hx2
          · rw [if_neg h1, except_bindM_ok] at h
            exact ih _ h x hx2

/-- If the candidate loop of `find_vertices` completes and at least one point
was sampled, every valid cell had a present, nonempty boundary entry. -/
theorem rawCandidates_ok_boundaries (valid : List ℕ)
    (bmap : ℕ → Option (List (ℤ × ℤ))) (ps : List (ℤ × ℤ)) (r : ℚ) (K : ℕ)
    (out : List Vertex) (h : rawCandidates valid bmap ps r K = .ok out)
    (hps : ps ≠ []) :
    ∀ c ∈ valid, ∃ b, bmap c = some b ∧ b ≠ [] := by
  cases ps with
  | nil => exact absurd rfl hps
  | cons p rest =>
    unfold rawCandidates at h
    rw [List.foldlM_cons] at h
    cases hc : cellsNearPoint valid bmap p r with
    | error e =>
      rw [hc, except_map_error, except_bindM_error] at h
      exact absurd h (by simp)
    | ok nc => exact cellsNearPoint_ok_boundaries valid bmap p r nc hc

/-- A missing or empty boundary for any valid cell makes `find_vertices`
raise as soon as any foreground point is sampled. -/
theorem find_vertices_raises (valid : List ℕ) (bmap : ℕ → Option (List (ℤ × ℤ)))
    (ps : List (ℤ × ℤ)) (r : ℚ) (K : ℕ) (cid : ℕ) (hcid : cid ∈ valid)
    (hbad : bmap cid = none ∨ bmap cid = some []) (hps : ps ≠ []) :
    ∃ e, find_vertices valid bmap ps r K = .error e := by
  cases hres : rawCandidates valid bmap ps r K with
  | error e =>
    refine ⟨e, ?_⟩
    rw [find_vertices, hres, except_map_error]
  | ok out =>
    exfalso
    obtain ⟨b, hb, hne⟩ := rawCandidates_ok_boundaries valid bmap ps r K out hres hps
      cid hcid
    rcases hbad with hn | hn
    · rw [hn] at hb
      exact Option.noConfusion hb
    · rw [hn] at hb
      exact hne (Option.some.inj hb).symm

theorem cellsNearPoint_go_sublist (valid : List ℕ)
    (bmap : ℕ → Option (List (ℤ × ℤ))) (p : ℤ × ℤ) (r : ℚ)
    (acc nc : List ℕ × List ℕ)
    (h : valid.foldlM
      (fun acc cid =>
        match bmap cid with
        | none => Except.error "KeyError"
        | some bnd =>
          (minSqDistE bnd p).bind (fun m =>
            if m ≤ r ^ 2 then
              Except.ok (acc.1 ++ [cid],
                if m ≤ (r * (1 / 2)) ^ 2 then acc.2 ++ [cid] else acc.2)
            else Except.ok acc))
      acc = Except.ok nc) :
    ∃ t, nc.1 = acc.1 ++ t ∧ t.Sublist valid := by
  induction valid generalizing acc with
  | nil =>
    rw [except_foldlM_nil] at h
    obtain rfl : acc = nc := Except.ok.inj h
    exact ⟨[], by simp, List.nil_sublist _⟩
  | cons c cs ih =>
    rw [List.foldlM_cons] at h
    cases hc : bmap c with
    | none =>
      rw [hc] at h
      dsimp only at h
      rw [except_bindM_error] at h
      exact absurd h (by simp)
    | some bnd =>
      cases bnd with
      | nil =>
        rw [hc] at h
        dsimp only at h
        rw [minSqDistE_nil, except_bind_error, except_bindM_error] at h
        exact absurd h (by simp)
      | cons q qs =>
        rw [hc] at h
        dsimp only at h
        obtain ⟨m, hm, _⟩ := minSqDistE_ok (q :: qs) p (by simp)
        rw [hm, except_bind_ok] at h
        by_cases h1 : m ≤ r ^ 2
        · rw [if_pos h1, except_bindM_ok] at h
          obtain ⟨t, ht, hts⟩ := ih _ h
          refine ⟨c :: t, ?_, List.Sublist.cons₂ c hts⟩
          rw [ht]
          simp
        · rw [if_neg h1, except_bindM_ok] at h
          obtain ⟨t, ht, hts⟩ := ih _ h
          exact ⟨t, ht, List.Sublist.cons c hts⟩

theorem cellsNearPoint_ok_sublist (valid : List ℕ)
    (bmap : ℕ → Option (List (ℤ × ℤ))) (p : ℤ × ℤ) (r : ℚ)
    (nc : List ℕ × List ℕ) (h : cellsNearPoint valid bmap p r = .ok nc) :
    nc.1.Sublist valid := by
  unfold cellsNearPoint at h
  obtain ⟨t, ht, hts⟩ := cellsNearPoint_go_sublist valid bmap p r ([], []) nc h
  rw [ht]
  simpa using hts

/-- Every raw candidate emitted by the detector loop has at least `K` near
cells, a count equal to its cell-list length, and a cell list drawn without
repetition from the valid-cell list. -/
theorem rawCandidates_go_mem (valid : List ℕ) (bmap : ℕ → Option (List (ℤ × ℤ)))
    (ps : List (ℤ × ℤ)) (r : ℚ) (K : ℕ) (acc out : List Vertex)
    (h : ps.foldlM
      (fun acc p =>
        (cellsNearPoint valid bmap p r).map (fun nc =>
          if K ≤ nc.1.length ∧ 2 ≤ nc.2.length then
            acc ++ [⟨((p.2 : ℚ), (p.1 : ℚ)), nc.1, nc.1.length⟩]
          else acc))
      acc = Except.ok out)
    (hacc : ∀ w ∈ acc,
      K ≤ w.cells.length ∧ w.num_cells = w.cells.length ∧ w.cells.Sublist valid)
    (v : Vertex) (hv : v ∈ out) :
    K ≤ v.cells.length ∧ v.num_cells = v.cells.length ∧ v.cells.Sublist valid := by
  induction ps generalizing acc with
  | nil =>
    rw [except_foldlM_nil] at h
    obtain rfl : acc = out := Except.ok.inj h
    exact hacc v hv
  | cons p rest ih =>
    rw [List.foldlM_cons] at h
    cases hc : cellsNearPoint valid bmap p r with
    | error e =>
      rw [hc, except_map_error, except_bindM_error] at h
      exact absurd h (by simp)
    | ok nc =>
      rw [hc, except_map_ok, except_bindM_ok] at h
      by_cases hcond : K ≤ nc.1.length ∧ 2 ≤ nc.2.length
      · rw [if_pos hcond] at h
        refine ih _ h ?_
        intro w hw
        rcases List.mem_append.mp hw with hw2 | hw2
        · exact hacc w hw2
        · have hwp : w = ⟨((p.2 : ℚ), (p.1 : ℚ)), nc.1, nc.1.length⟩ := by
            simpa using hw2
          subst hwp
          exact ⟨hcond.1, rfl, cellsNearPoint_ok_sublist valid bmap p r nc hc⟩
      · rw [if_neg hcond] at h
        exact ih _ h hacc

/-- Every raw candidate emitted by a completed detector loop has at least `K`
near cells, a count equal to its cell-list length, and a cell list drawn
without repetition from the valid-cell list. -/
theorem rawCandidates_ok_mem (valid : List ℕ) (bmap : ℕ → Option (List (ℤ × ℤ)))
    (ps : List (ℤ × ℤ)) (r : ℚ) (K : ℕ) (out : List Vertex)
    (h : rawCandidates valid bmap ps r K = .ok out) (v : Vertex) (hv : v ∈ out) :
    K ≤ v.cells.length ∧ v.num_cells = v.cells.length ∧ v.cells.Sublist valid := by
  unfold rawCandidates at h
  exact rawCandidates_go_mem valid bmap ps r K [] out h (by simp) v hv

/-- A cell whose stored boundary is empty is never inserted into any
successfully computed neighbour set. -/
theorem neighborSet_go_not_mem (bA : List (ℤ × ℤ)) (others : List ℕ)
    (bmap : ℕ → Option (List (ℤ × ℤ))) (cid : ℕ) (hcid : bmap cid = some [])
    (s : Finset ℕ) (hs : cid ∉ s) (S : Finset ℕ)
    (h : others.foldlM
      (fun s oid =>
        match bmap oid with
        | none => Except.error "KeyError"
        | some bB => (isNeighborE bA bB).map (fun b => if b then insert oid s else s))
      s = Except.ok S) : cid ∉ S := by
  induction others generalizing s with
  | nil =>
    rw [except_foldlM_nil] at h
    obtain rfl : s = S := Except.ok.inj h
    exact hs
  | cons o os ih =>
    rw [List.foldlM_cons] at h
    cases ho : bmap o with
    | none =>
      rw [ho] at h
      dsimp only at h
      rw [except_bindM_error] at h
      exact absurd h (by simp)
    | some bB =>
      rw [ho] at h
      dsimp only at h
      cases hob : isNeighborE bA bB with
      | error e =>
        rw [hob, except_map_error, except_bindM_error] at h
        exact absurd h (by simp)
      | ok b =>
        rw [hob, except_map_ok, except_bindM_ok] at h
        cases b with
        | false =>
          rw [if_neg (by simp)] at h
          exact ih s hs h
        | true =>
          rw [if_pos rfl] at h
          have hoc : o ≠ cid := by
            rintro rfl
            rw [hcid] at ho
            have : bB = [] := (Option.some.inj ho).symm
            subst this
            exact isNeighborE_nil_right bA hob
          refine ih (insert o s) ?_ h
          simp only [Finset.mem_insert]
          rintro (rfl | hx)
          · exact hoc rfl
          · exact hs hx

theorem neighborSetE_not_mem (valid : List ℕ) (bmap : ℕ → Option (List (ℤ × ℤ)))
    (o cid : ℕ) (S : Finset ℕ) (hcid : bmap cid = some [])
    (h : neighborSetE valid bmap o = .ok S) : cid ∉ S := by
  unfold neighborSetE at h
  cases ho : bmap o with
  | none =>
    rw [ho] at h
    exact absurd h (by simp)
  | some bA =>
    rw [ho] at h
    dsimp only at h
    exact neighborSet_go_not_mem bA _ bmap cid hcid ∅ (Finset.not_mem_empty cid) S h

theorem sqDistQ_comm (p q : ℚ × ℚ) : sqDistQ p q = sqDistQ q p := by
  unfold sqDistQ
  ring

/-- Convert a pairwise-separation hypothesis on the list into the indexed
form used by the merge-loop lemmas. -/
theorem pairwise_sep_index (vs : List Vertex) (t : ℚ)
    (hsep : vs.Pairwise (fun u v => ¬ sqDistQ u.location v.location ≤ t)) :
    ∀ j k, j < vs.length → k < vs.length → j ≠ k →
      ¬ sqDistQ ((vs.getD j default).location) ((vs.getD k default).location) ≤ t := by
  intro j k hj hk hne
  rw [List.getD_eq_getElem vs default hj, List.getD_eq_getElem vs default hk]
  rcases Nat.lt_or_ge j k with hlt | hge
  · exact List.pairwise_iff_getElem.mp hsep j k hj hk hlt
  · have hklt : k < j := lt_of_le_of_ne hge (Ne.symm hne)
    have := List.pairwise_iff_getElem.mp hsep k j hk hj hklt
    intro hle
    rw [sqDistQ_comm] at hle
    exact this hle

theorem find_vertices_ok (valid : List ℕ) (bmap : ℕ → Option (List (ℤ × ℤ)))
    (ps : List (ℤ × ℤ)) (r : ℚ) (K : ℕ) (out : List Vertex)
    (h : find_vertices valid bmap ps r K = .ok out) :
    ∃ raw, rawCandidates valid bmap ps r K = .ok raw ∧
      out = if raw.isEmpty then [] else mergeVertices raw (r * 1) := by
  unfold find_vertices at h
  cases hres : rawCandidates valid bmap ps r K with
  | error e =>
    rw [hres, except_map_error] at h
    exact absurd h (by simp)
  | ok raw =>
    rw [hres, except_map_ok] at h
    exact ⟨raw, rfl, (Except.ok.inj h).symm⟩

theorem cluster_vertices_cases (vs : List Vertex) (r : ℚ) (minR : ℕ) :
    cluster_vertices vs r minR = [] ∨
    cluster_vertices vs r minR =
      mergeVertices (filter_rosette_vertices vs minR) (r * (3 / 2)) := by
  unfold cluster_vertices
  by_cases h : (filter_rosette_vertices vs minR).isEmpty
  · exact Or.inl (by rw [if_pos h])
  · exact Or.inr (by rw [if_neg h])

theorem boundaryOf_subset (m : Finset (ℤ × ℤ)) : boundaryOf m ⊆ m :=
  Finset.sdiff_subset

/-- A nonempty mask has a nonempty boundary: its topmost pixel is not
4-surrounded, hence survives the erosion difference. -/
theorem boundaryOf_nonempty (m : Finset (ℤ × ℤ)) (hm : m.Nonempty) :
    (boundaryOf m).Nonempty := by
  obtain ⟨p, hp, hmin⟩ := Finset.exists_min_image m Prod.fst hm
  refine ⟨p, Finset.mem_sdiff.mpr ⟨hp, ?_⟩⟩
  rw [erode, Finset.mem_filter]
  rintro ⟨-, h1, -, -, -⟩
  have := hmin (p.1 - 1, p.2) h1
  simp only at this
  omega

/-! ## Concrete data for witnesses and counterexamples -/

/-- A two-cell boundary map for concrete instances: cell 1 has the single
boundary pixel (0,0) and cell 2 the single boundary pixel (0,1); the two
pixels are 4-adjacent. -/
def bmapTwo : ℕ → Option (List (ℤ × ℤ)) :=
  fun c => if c = 1 then some [((0 : ℤ), (0 : ℤ))]
    else if c = 2 then some [((0 : ℤ), (1 : ℤ))] else none

/-- A two-cell boundary map whose cells' nearest boundary pixels (0,0) and
(0,2) are exactly two pixels apart: not 8-adjacent, with one empty pixel
between them. -/
def bmapGap : ℕ → Option (List (ℤ × ℤ)) :=
  fun c => if c = 1 then some [((0 : ℤ), (0 : ℤ))]
    else if c = 2 then some [((0 : ℤ), (2 : ℤ))] else none

/-- A boundary map holding a degenerate cell: cell 1 is present with an
empty boundary pixel list. -/
def bmapDeg : ℕ → Option (List (ℤ × ℤ)) :=
  fun c => if c = 1 then some [] else none

/-! ## The claims -/

/-- C7: for every cell mask, the extracted boundary pixel set (mask minus its
binary erosion, as in `extract_cell_boundaries` and `calculate_perimeter`) is
a subset of the mask's true pixels, and the boundary set is empty if and only
if the mask itself is empty. -/
theorem claim_C7_boundary (m : Finset (ℤ × ℤ)) :
    boundaryOf m ⊆ m ∧ (boundaryOf m = ∅ ↔ m = ∅) := by
  refine ⟨boundaryOf_subset m, ?_, ?_⟩
  · intro hb
    by_contra hm
    obtain ⟨p, hp⟩ := boundaryOf_nonempty m (Finset.nonempty_iff_ne_empty.mpr hm)
    rw [hb] at hp
    exact Finset.not_mem_empty p hp
  · intro hm
    rw [hm]
    simp [boundaryOf]

/-- C4: when every valid cell's boundary is present and nonempty, the
detector loop of `find_vertices` emits a raw junction candidate at a sampled
point iff at least `K` cells are within the radius and at least 2 cells are
within half the radius (as packaged by `candAt`); the candidate's cell list
is exactly the near-cell filter and, for a duplicate-free valid-cell list,
its stored count is the cardinality of that set of cells. -/
theorem claim_C4_detector (valid : List ℕ) (bmap : ℕ → Option (List (ℤ × ℤ)))
    (ps : List (ℤ × ℤ)) (r : ℚ) (K : ℕ)
    (hb : ∀ c ∈ valid, ∃ b, bmap c = some b ∧ b ≠ []) :
    rawCandidates valid bmap ps r K = .ok (ps.filterMap (candAt valid bmap r K)) ∧
    (valid.Nodup → ∀ (p : ℤ × ℤ) (t : ℚ),
      (nearCells valid bmap p t).length = (nearCells valid bmap p t).toFinset.card) := by
  refine ⟨rawCandidates_ok valid bmap ps r K hb, fun hnd p t => ?_⟩
  exact (List.toFinset_card_of_nodup (hnd.filter _)).symm

/-- C4 witness: a concrete two-cell configuration where the detector accepts
the sampled point, instantiating `claim_C4_detector`. -/
theorem claim_C4_witness :
    rawCandidates [1, 2] bmapTwo [((0 : ℤ), (0 : ℤ))] 5 2 =
      .ok ([((0 : ℤ), (0 : ℤ))].filterMap (candAt [1, 2] bmapTwo 5 2)) ∧
    (([1, 2] : List ℕ).Nodup → ∀ (p : ℤ × ℤ) (t : ℚ),
      (nearCells [1, 2] bmapTwo p t).length =
        (nearCells [1, 2] bmapTwo p t).toFinset.card) :=
  claim_C4_detector [1, 2] bmapTwo [((0 : ℤ), (0 : ℤ))] 5 2
    (by intro c hc; fin_cases hc <;> exact ⟨_, rfl, by decide⟩)

/-- C5: every junction record produced by the detector loop, by
`find_vertices`' clustering pass, or by `cluster_vertices` stores a
`num_cells` equal to the cardinality of its (deduplicated) participating-cell
set. -/
theorem claim_C5_cardinality (valid : List ℕ) (bmap : ℕ → Option (List (ℤ × ℤ)))
    (ps : List (ℤ × ℤ)) (r : ℚ) (K : ℕ) (vs : List Vertex) (r2 : ℚ) (minR : ℕ) :
    (∀ out, valid.Nodup → rawCandidates valid bmap ps r K = .ok out →
      ∀ v ∈ out, v.num_cells = v.cells.toFinset.card) ∧
    (∀ out, find_vertices valid bmap ps r K = .ok out →
      ∀ v ∈ out, v.num_cells = v.cells.toFinset.card) ∧
    (∀ v ∈ cluster_vertices vs r2 minR, v.num_cells = v.cells.toFinset.card) := by
  refine ⟨?_, ?_, ?_⟩
  · intro out hnd hout v hv
    obtain ⟨hK, hnum, hsub⟩ := rawCandidates_ok_mem valid bmap ps r K out hout v hv
    rw [hnum, List.toFinset_card_of_nodup (hnd.sublist hsub)]
  · intro out hout v hv
    obtain ⟨raw, hraw, hcase⟩ := find_vertices_ok valid bmap ps r K out hout
    subst hcase
    by_cases he : raw.isEmpty
    · rw [if_pos he] at hv
      simp at hv
    · rw [if_neg he] at hv
      obtain ⟨i, hi, rfl⟩ := mem_mergeVertices raw (r * 1) v hv
      exact (seedMerge_inv raw (r * 1) i).2
  · intro v hv
    rcases cluster_vertices_cases vs r2 minR with hc | hc
    · rw [hc] at hv
      simp at hv
    · rw [hc] at hv
      obtain ⟨i, hi, rfl⟩ := mem_mergeVertices _ _ v hv
      exact (seedMerge_inv _ _ i).2

/-- C5 witness: the single rosette produced from one qualifying junction has
its count equal to its distinct-cell cardinality, by `claim_C5_cardinality`. -/
theorem claim_C5_witness :
    (⟨((0 : ℚ), (0 : ℚ)), [1, 2, 3, 4, 5], 5⟩ : Vertex).num_cells =
      (⟨((0 : ℚ), (0 : ℚ)), [1, 2, 3, 4, 5], 5⟩ : Vertex).cells.toFinset.card :=
  (claim_C5_cardinality [] (fun _ => none) [] 0 0
      [⟨((0 : ℚ), (0 : ℚ)), [1, 2, 3, 4, 5], 5⟩] 1 5).2.2
    ⟨((0 : ℚ), (0 : ℚ)), [1, 2, 3, 4, 5], 5⟩ (by with_unfolding_all decide)

/-- C10: every merged junction returned by `find_vertices` keeps
`num_cells ≥ min_cells_for_vertex` (its cell set contains its seed
candidate's, which has at least that many members), and every rosette
returned by `cluster_vertices` on count-accurate inputs keeps
`num_cells ≥ min_cells_for_rosette`. -/
theorem claim_C10_threshold (valid : List ℕ) (bmap : ℕ → Option (List (ℤ × ℤ)))
    (ps : List (ℤ × ℤ)) (r : ℚ) (K : ℕ) (vs : List Vertex) (r2 : ℚ) (minR : ℕ) :
    (∀ out, valid.Nodup → find_vertices valid bmap ps r K = .ok out →
      ∀ v ∈ out, K ≤ v.num_cells) ∧
    ((∀ v ∈ vs, v.num_cells = v.cells.toFinset.card) →
      ∀ v ∈ cluster_vertices vs r2 minR, minR ≤ v.num_cells) := by
  constructor
  · intro out hnd hout v hv
    obtain ⟨raw, hraw, hcase⟩ := find_vertices_ok valid bmap ps r K out hout
    subst hcase
    by_cases he : raw.isEmpty
    · rw [if_pos he] at hv
      simp at hv
    · rw [if_neg he] at hv
      obtain ⟨i, hi, rfl⟩ := mem_mergeVertices raw (r * 1) v hv
      have hmem : raw.getD i default ∈ raw := getD_mem_of_lt raw i hi
      obtain ⟨hK, hnum, hsub⟩ := rawCandidates_ok_mem valid bmap ps r K raw hraw _ hmem
      rw [(seedMerge_inv raw (r * 1) i).2]
      calc K ≤ (raw.getD i default).cells.length := hK
        _ = (raw.getD i default).cells.toFinset.card :=
            (List.toFinset_card_of_nodup (hnd.sublist hsub)).symm
        _ ≤ (seedMerge raw (r * 1) i).cells.toFinset.card :=
            Finset.card_le_card (seedMerge_self_subset raw (r * 1) i hi)
  · intro hinv v hv
    rcases cluster_vertices_cases vs r2 minR with hc | hc
    · rw [hc] at hv
      simp at hv
    · rw [hc] at hv
      obtain ⟨i, hi, rfl⟩ := mem_mergeVertices _ _ v hv
      have hmem : (filter_rosette_vertices vs minR).getD i default ∈
          filter_rosette_vertices vs minR := getD_mem_of_lt _ i hi
      have hmf := hmem
      rw [filter_rosette_vertices] at hmf
      have hminR : minR ≤ ((filter_rosette_vertices vs minR).getD i default).num_cells :=
        of_decide_eq_true (List.mem_filter.mp hmf).2
      have hvmem : (filter_rosette_vertices vs minR).getD i default ∈ vs :=
        List.mem_of_mem_filter hmf
      rw [(seedMerge_inv _ _ i).2]
      calc minR ≤ ((filter_rosette_vertices vs minR).getD i default).num_cells := hminR
        _ = ((filter_rosette_vertices vs minR).getD i default).cells.toFinset.card :=
            hinv _ hvmem
        _ ≤ (seedMerge (filter_rosette_vertices vs minR) (r2 * (3 / 2)) i).cells.toFinset.card :=
            Finset.card_le_card
              (seedMerge_self_subset (filter_rosette_vertices vs minR) (r2 * (3 / 2)) i hi)

/-- C10 witness: with two cells both near the sampled point and threshold 2,
the single merged junction keeps a count of at least 2, by
`claim_C10_threshold`. -/
theorem claim_C10_witness :
    2 ≤ (⟨((0 : ℚ), (0 : ℚ)), [1, 2], 2⟩ : Vertex).num_cells :=
  (claim_C10_threshold [1, 2] bmapTwo [((0 : ℤ), (0 : ℤ))] 5 2 [] 0 0).1
    [⟨((0 : ℚ), (0 : ℚ)), [1, 2], 2⟩] (by decide) (by with_unfolding_all decide)
    ⟨((0 : ℚ), (0 : ℚ)), [1, 2], 2⟩ (by with_unfolding_all decide)

/-- C1 is false as stated: the one-pass merge is not order-independent.
Three collinear junction candidates at x = 0, 2, 4 with merge distance 2
(radius 4/3 in `cluster_vertices`, so 1.5·r = 2) cluster into two merged
junctions when processed in position order, but a permutation that processes
the middle candidate first absorbs all three into a single junction: the
result sets differ in size, hence in locations and memberships. -/
theorem claim_C1_counterexample :
    List.Perm
      [(⟨((2 : ℚ), (0 : ℚ)), [1, 2, 3, 4, 6], 5⟩ : Vertex),
        ⟨((0 : ℚ), (0 : ℚ)), [1, 2, 3, 4, 5], 5⟩,
        ⟨((4 : ℚ), (0 : ℚ)), [1, 2, 3, 4, 7], 5⟩]
      [⟨((0 : ℚ), (0 : ℚ)), [1, 2, 3, 4, 5], 5⟩,
        ⟨((2 : ℚ), (0 : ℚ)), [1, 2, 3, 4, 6], 5⟩,
        ⟨((4 : ℚ), (0 : ℚ)), [1, 2, 3, 4, 7], 5⟩] ∧
    (cluster_vertices
      [⟨((0 : ℚ), (0 : ℚ)), [1, 2, 3, 4, 5], 5⟩,
        ⟨((2 : ℚ), (0 : ℚ)), [1, 2, 3, 4, 6], 5⟩,
        ⟨((4 : ℚ), (0 : ℚ)), [1, 2, 3, 4, 7], 5⟩] (4 / 3) 5).length = 2 ∧
    (cluster_vertices
      [⟨((2 : ℚ), (0 : ℚ)), [1, 2, 3, 4, 6], 5⟩,
        ⟨((0 : ℚ), (0 : ℚ)), [1, 2, 3, 4, 5], 5⟩,
        ⟨((4 : ℚ), (0 : ℚ)), [1, 2, 3, 4, 7], 5⟩] (4 / 3) 5).length = 1 := by
  with_unfolding_all decide

/-- C1 amended: the one-pass merge is order-dependent in general (see the
counterexample), but the absorption property behind the claim does hold:
every emitted junction is the merge of some seed, it absorbs the cell set of
every candidate within merge distance of that seed, and every candidate's
cell set is contained in some emitted junction's cell set. -/
theorem claim_C1_amended (vs : List Vertex) (md : ℚ) :
    (∀ v ∈ mergeVertices vs md, ∃ i, i < vs.length ∧ v = seedMerge vs md i ∧
      ∀ j, j < vs.length →
        sqDistQ ((vs.getD j default).location) ((vs.getD i default).location) ≤ md ^ 2 →
        (vs.getD j default).cells.toFinset ⊆ v.cells.toFinset) ∧
    (∀ j, j < vs.length → ∃ v ∈ mergeVertices vs md,
      (vs.getD j default).cells.toFinset ⊆ v.cells.toFinset) := by
  constructor
  · intro v hv
    obtain ⟨i, hi, rfl⟩ := mem_mergeVertices vs md v hv
    exact ⟨i, hi, rfl, fun j hj hd => seedMerge_absorbs vs md i j hj hd⟩
  · exact fun j hj => mergeVertices_covers vs md j hj

/-- C1 witness: in a concrete two-candidate merge, the second candidate's
cell set ends up inside some merged junction, by `claim_C1_amended`. -/
theorem claim_C1_witness :
    ∃ v ∈ mergeVertices
      [(⟨((0 : ℚ), (0 : ℚ)), [1, 2], 2⟩ : Vertex), ⟨((1 : ℚ), (0 : ℚ)), [3], 1⟩] 2,
      (([(⟨((0 : ℚ), (0 : ℚ)), [1, 2], 2⟩ : Vertex),
          ⟨((1 : ℚ), (0 : ℚ)), [3], 1⟩].getD 1 default).cells.toFinset ⊆
        v.cells.toFinset) :=
  (claim_C1_amended
    [⟨((0 : ℚ), (0 : ℚ)), [1, 2], 2⟩, ⟨((1 : ℚ), (0 : ℚ)), [3], 1⟩] 2).2 1 (by decide)

/-- C2 is false as stated: the merge is not idempotent, because averaging can
pull merged locations back within the merge distance.  Re-running
`cluster_vertices` on its own output (same radius, same threshold) merges the
two junctions produced by the first pass into one, so the first pass's two
output junctions were within the merge distance of each other. -/
theorem claim_C2_counterexample :
    (cluster_vertices
      [(⟨((0 : ℚ), (0 : ℚ)), [1, 2, 3, 4, 5], 5⟩ : Vertex),
        ⟨((2 : ℚ), (0 : ℚ)), [1, 2, 3, 4, 6], 5⟩,
        ⟨((4 : ℚ), (0 : ℚ)), [1, 2, 3, 4, 7], 5⟩] (4 / 3) 5).length = 2 ∧
    (cluster_vertices (cluster_vertices
      [⟨((0 : ℚ), (0 : ℚ)), [1, 2, 3, 4, 5], 5⟩,
        ⟨((2 : ℚ), (0 : ℚ)), [1, 2, 3, 4, 6], 5⟩,
        ⟨((4 : ℚ), (0 : ℚ)), [1, 2, 3, 4, 7], 5⟩] (4 / 3) 5) (4 / 3) 5).length = 1 := by
  with_unfolding_all decide

/-- C2 amended: re-running `cluster_vertices` on its own output is the
identity provided no two junctions in that output lie within the merge
distance of each other (together with the structural facts that merged
output always satisfies: duplicate-free cell lists, accurate counts, and
truncation-stable locations).  The proviso is necessary: the counterexample
shows averaged locations can fall back within merge distance. -/
theorem claim_C2_amended (vs : List Vertex) (r : ℚ) (minR : ℕ)
    (hsep : vs.Pairwise (fun u v => ¬ sqDistQ u.location v.location ≤ (r * (3 / 2)) ^ 2))
    (hnd : ∀ v ∈ vs, v.cells.Nodup)
    (hnum : ∀ v ∈ vs, v.num_cells = v.cells.length)
    (hloc : ∀ v ∈ vs, v.location =
      ((ratTrunc v.location.1 : ℚ), (ratTrunc v.location.2 : ℚ)))
    (hmin : ∀ v ∈ vs, minR ≤ v.num_cells) :
    cluster_vertices vs r minR = vs := by
  unfold cluster_vertices filter_rosette_vertices
  have hfilter : vs.filter (fun v => minR ≤ v.num_cells) = vs :=
    List.filter_eq_self.mpr (fun v hv => decide_eq_true (hmin v hv))
  rw [hfilter]
  by_cases hvs : vs.isEmpty
  · rw [if_pos hvs]
    exact (List.isEmpty_iff.mp hvs).symm
  · rw [if_neg hvs]
    exact mergeVertices_id vs (r * (3 / 2)) (pairwise_sep_index vs _ hsep) hnd hnum hloc

/-- C2 witness: two junctions nine pixels apart (merge distance 2) are left
unchanged by a second clustering pass, by `claim_C2_amended`. -/
theorem claim_C2_witness :
    cluster_vertices
      [(⟨((0 : ℚ), (0 : ℚ)), [1, 2, 3, 4, 5], 5⟩ : Vertex),
        ⟨((9 : ℚ), (0 : ℚ)), [4, 5, 6, 7, 8], 5⟩] (4 / 3) 5 =
      [⟨((0 : ℚ), (0 : ℚ)), [1, 2, 3, 4, 5], 5⟩,
        ⟨((9 : ℚ), (0 : ℚ)), [4, 5, 6, 7, 8], 5⟩] :=
  claim_C2_amended
    [⟨((0 : ℚ), (0 : ℚ)), [1, 2, 3, 4, 5], 5⟩, ⟨((9 : ℚ), (0 : ℚ)), [4, 5, 6, 7, 8], 5⟩]
    (4 / 3) 5 (by with_unfolding_all decide) (by decide) (by decide)
    (by with_unfolding_all decide) (by decide)

/-- C3 is false as stated: `calculate_cell_neighbors` does not test pixel
adjacency but a Euclidean distance of at most 2 between boundary pixels.
Two cells whose nearest boundary pixels are (0,0) and (0,2) — two pixels
apart, not 8-adjacent, with one empty pixel between them — are still
reported as neighbours of each other. -/
theorem claim_C3_counterexample :
    neighborSetE [1, 2] bmapGap 1 = .ok {2} ∧
    (∀ p ∈ [((0 : ℤ), (0 : ℤ))], ∀ q ∈ [((0 : ℤ), (2 : ℤ))], ¬ adjacent8 p q) := by
  constructor
  · with_unfolding_all decide
  · decide

/-- C3 amended: `calculate_cell_neighbors` counts a neighbour iff some
boundary pixel of one cell is within Euclidean distance 2 of a boundary
pixel of the other (`touches2`); consequently two cells all of whose
boundary pixels are farther than 2 apart are never reported adjacent, and
two cells with 4-adjacent boundary pixels (a shared boundary edge) are
always reported adjacent. -/
theorem claim_C3_amended (valid : List ℕ) (bmap : ℕ → Option (List (ℤ × ℤ)))
    (A B : ℕ) (SA : Finset ℕ)
    (hb : ∀ c ∈ valid, ∃ b, bmap c = some b ∧ b ≠ [])
    (hA : A ∈ valid) (hB : B ∈ valid) (hBA : B ≠ A)
    (hSA : neighborSetE valid bmap A = .ok SA) :
    (B ∈ SA ↔ touches2 ((bmap A).getD []) ((bmap B).getD [])) ∧
    ((∀ p ∈ (bmap A).getD [], ∀ q ∈ (bmap B).getD [], ¬ sqDistZ p q ≤ 4) → B ∉ SA) ∧
    ((∃ p ∈ (bmap A).getD [], ∃ q ∈ (bmap B).getD [],
      (p.1 - q.1).natAbs + (p.2 - q.2).natAbs = 1) → B ∈ SA) := by
  obtain ⟨S, hS, hSiff⟩ := neighborSetE_ok valid bmap A hb hA
  obtain rfl : S = SA := Except.ok.inj (hS.symm.trans hSA)
  have hmain : B ∈ S ↔ touches2 ((bmap A).getD []) ((bmap B).getD []) := by
    rw [hSiff B]
    constructor
    · rintro ⟨-, -, ht⟩
      exact ht
    · intro ht
      exact ⟨hB, hBA, ht⟩
  refine ⟨hmain, ?_, ?_⟩
  · intro hfar hmem
    obtain ⟨p, hp, q, hq, hle⟩ := hmain.mp hmem
    exact hfar p hp q hq hle
  · rintro ⟨p, hp, q, hq, hman⟩
    apply hmain.mpr
    refine ⟨p, hp, q, hq, ?_⟩
    unfold sqDistZ
    have h1 : -1 ≤ p.1 - q.1 ∧ p.1 - q.1 ≤ 1 := by omega
    have h2 : -1 ≤ p.2 - q.2 ∧ p.2 - q.2 ≤ 1 := by omega
    have c1 : ((p.1 : ℚ) - (q.1 : ℚ)) = ((p.1 - q.1 : ℤ) : ℚ) := by push_cast; ring
    have c2 : ((p.2 : ℚ) - (q.2 : ℚ)) = ((p.2 - q.2 : ℤ) : ℚ) := by push_cast; ring
    rw [c1, c2]
    have b1 : ((-1 : ℤ) : ℚ) ≤ ((p.1 - q.1 : ℤ) : ℚ) := Int.cast_le.mpr h1.1
    have b2 : ((p.1 - q.1 : ℤ) : ℚ) ≤ ((1 : ℤ) : ℚ) := Int.cast_le.mpr h1.2
    have b3 : ((-1 : ℤ) : ℚ) ≤ ((p.2 - q.2 : ℤ) : ℚ) := Int.cast_le.mpr h2.1
    have b4 : ((p.2 - q.2 : ℤ) : ℚ) ≤ ((1 : ℤ) : ℚ) := Int.cast_le.mpr h2.2
    push_cast at b1 b2 b3 b4
    nlinarith [b1, b2, b3, b4]

/-- C3 witness: two cells with 4-adjacent boundary pixels are mutually
reported, instantiating `claim_C3_amended` at the concrete map
`bmapTwo`. -/
theorem claim_C3_witness :
    ((2 ∈ ({2} : Finset ℕ)) ↔ touches2 ((bmapTwo 1).getD []) ((bmapTwo 2).getD [])) ∧
    ((∀ p ∈ (bmapTwo 1).getD [], ∀ q ∈ (bmapTwo 2).getD [], ¬ sqDistZ p q ≤ 4) →
      2 ∉ ({2} : Finset ℕ)) ∧
    ((∃ p ∈ (bmapTwo 1).getD [], ∃ q ∈ (bmapTwo 2).getD [],
      (p.1 - q.1).natAbs + (p.2 - q.2).natAbs = 1) → 2 ∈ ({2} : Finset ℕ)) :=
  claim_C3_amended [1, 2] bmapTwo 1 2 {2}
    (by intro c hc; fin_cases hc <;> exact ⟨_, rfl, by decide⟩)
    (by decide) (by decide) (by decide) (by with_unfolding_all decide)

/-- C6: the neighbour relation is symmetric, both for the boundary-distance
computation of `calculate_cell_neighbors` (when both cells' neighbour sets
are successfully computed) and for the vertex-co-participation neighbour
sets of `prepare_interactive_data`. -/
theorem claim_C6_symmetry (valid : List ℕ) (bmap : ℕ → Option (List (ℤ × ℤ)))
    (A B : ℕ) (vz : List Vertex)
    (hb : ∀ c ∈ valid, ∃ b, bmap c = some b ∧ b ≠ [])
    (hA : A ∈ valid) (hB : B ∈ valid) :
    (∀ SA SB, neighborSetE valid bmap A = .ok SA →
      neighborSetE valid bmap B = .ok SB → (B ∈ SA ↔ A ∈ SB)) ∧
    (B ∈ vertexNeighbors vz A ↔ A ∈ vertexNeighbors vz B) := by
  constructor
  · intro SA SB hSA hSB
    obtain ⟨S1, hS1, h1iff⟩ := neighborSetE_ok valid bmap A hb hA
    obtain rfl : S1 = SA := Except.ok.inj (hS1.symm.trans hSA)
    obtain ⟨S2, hS2, h2iff⟩ := neighborSetE_ok valid bmap B hb hB
    obtain rfl : S2 = SB := Except.ok.inj (hS2.symm.trans hSB)
    rw [h1iff B, h2iff A]
    constructor
    · rintro ⟨-, hne, ht⟩
      exact ⟨hA, hne.symm, (touches2_comm _ _).mp ht⟩
    · rintro ⟨-, hne, ht⟩
      exact ⟨hB, hne.symm, (touches2_comm _ _).mp ht⟩
  · rw [mem_vertexNeighbors, mem_vertexNeighbors]
    constructor
    · rintro ⟨v, hv, h1, h2, h3⟩
      exact ⟨v, hv, h2, h1, h3.symm⟩
    · rintro ⟨v, hv, h1, h2, h3⟩
      exact ⟨v, hv, h2, h1, h3.symm⟩

/-- C6 witness: symmetry instantiated on the concrete two-cell map
`bmapTwo` and one concrete shared vertex, by `claim_C6_symmetry`. -/
theorem claim_C6_witness :
    ((2 ∈ ({2} : Finset ℕ)) ↔ (1 ∈ ({1} : Finset ℕ))) ∧
    ((2 ∈ vertexNeighbors [⟨((0 : ℚ), (0 : ℚ)), [1, 2], 2⟩] 1) ↔
      (1 ∈ vertexNeighbors [⟨((0 : ℚ), (0 : ℚ)), [1, 2], 2⟩] 2)) := by
  have h := claim_C6_symmetry [1, 2] bmapTwo 1 2
    [⟨((0 : ℚ), (0 : ℚ)), [1, 2], 2⟩]
    (by intro c hc; fin_cases hc <;> exact ⟨_, rfl, by decide⟩)
    (by decide) (by decide)
  exact ⟨h.1 {2} {1} (by with_unfolding_all decide) (by with_unfolding_all decide), h.2⟩

/-- C8 is false as stated: `prepare_interactive_data`'s perimeter computation
does not raise on a missing boundary entry — it silently falls back to
recomputing the boundary from the cell's mask.  For a one-pixel mask and an
entirely missing boundary map it returns the recomputed perimeter 1 instead
of raising. -/
theorem claim_C8_counterexample :
    perimeterLookup (fun _ => none) {((0 : ℤ), (0 : ℤ))} 1 = 1 := by
  decide

/-- C8 amended: `find_vertices` raises immediately (KeyError) when a valid
cell's label is absent from the boundary map and any point is sampled, but
`prepare_interactive_data`'s perimeter lookup silently substitutes the
perimeter recomputed from the mask instead of raising. -/
theorem claim_C8_amended (valid : List ℕ) (bmap : ℕ → Option (List (ℤ × ℤ)))
    (ps : List (ℤ × ℤ)) (r : ℚ) (K : ℕ) (cid : ℕ) (mask : Finset (ℤ × ℤ))
    (hcid : cid ∈ valid) (hmiss : bmap cid = none) (hps : ps ≠ []) :
    (∃ e, find_vertices valid bmap ps r K = .error e) ∧
    perimeterLookup bmap mask cid = (boundaryOf mask).card := by
  refine ⟨find_vertices_raises valid bmap ps r K cid hcid (Or.inl hmiss) hps, ?_⟩
  unfold perimeterLookup
  rw [hmiss]

/-- C8 witness: instantiation of `claim_C8_amended` on a one-cell list with
an entirely missing boundary map and one sampled point. -/
theorem claim_C8_witness :
    (∃ e, find_vertices [1] (fun _ => none) [((0 : ℤ), (0 : ℤ))] 5 3 = .error e) ∧
    perimeterLookup (fun _ => none) {((0 : ℤ), (0 : ℤ))} 1 =
      (boundaryOf {((0 : ℤ), (0 : ℤ))}).card :=
  claim_C8_amended [1] (fun _ => none) [((0 : ℤ), (0 : ℤ))] 5 3 1
    {((0 : ℤ), (0 : ℤ))} (by decide) rfl (by decide)

/-- C9 is false as stated: the pipeline does not complete normally on a
degenerate (zero-pixel) cell.  With one valid cell whose boundary list is
empty and one sampled foreground point, `find_vertices` raises numpy's
`ValueError` (minimum of an empty distance array) instead of returning. -/
theorem claim_C9_counterexample :
    find_vertices [1] bmapDeg [((0 : ℤ), (0 : ℤ))] 5 3 =
      .error "ValueError: zero-size array reduction" := by
  with_unfolding_all decide

/-- C9 amended: a degenerate cell (empty boundary) has perimeter 0 and never
appears in any successfully computed neighbour set, but the pipeline does not
complete normally: `find_vertices` raises as soon as any foreground point is
sampled while a degenerate cell is in the valid list. -/
theorem claim_C9_amended (valid : List ℕ) (bmap : ℕ → Option (List (ℤ × ℤ)))
    (ps : List (ℤ × ℤ)) (r : ℚ) (K : ℕ) (cid o : ℕ) (S : Finset ℕ)
    (hcid : cid ∈ valid) (hdeg : bmap cid = some []) :
    (ps ≠ [] → ∃ e, find_vertices valid bmap ps r K = .error e) ∧
    calculate_perimeter (∅ : Finset (ℤ × ℤ)) = 0 ∧
    (neighborSetE valid bmap o = .ok S → cid ∉ S) := by
  refine ⟨fun hps => find_vertices_raises valid bmap ps r K cid hcid (Or.inr hdeg) hps,
    by decide, fun hok => neighborSetE_not_mem valid bmap o cid S hdeg hok⟩

/-- C9 witness: instantiation of `claim_C9_amended` on a one-cell list whose
only cell is degenerate. -/
theorem claim_C9_witness :
    (([((0 : ℤ), (0 : ℤ))] : List (ℤ × ℤ)) ≠ [] →
      ∃ e, find_vertices [1] bmapDeg [((0 : ℤ), (0 : ℤ))] 5 3 = .error e) ∧
    calculate_perimeter (∅ : Finset (ℤ × ℤ)) = 0 ∧
    (neighborSetE [1] bmapDeg 1 = .ok ∅ → 1 ∉ (∅ : Finset ℕ)) :=
  claim_C9_amended [1] bmapDeg [((0 : ℤ), (0 : ℤ))] 5 3 1 1 ∅ (by decide) rfl

end Rosette
